/-
Verification of the UsagePatternAnalyzer engine
(src/usage_pattern_analyzer.py, thresholds from src/ai_config.py).

The Python engine is embedded shallowly:
- Python dicts (which preserve insertion order) are association lists; a
  `defaultdict(int)` bump is `incr`, a `defaultdict(list)` append is
  `appendAt` (both update the first matching key in place and append a
  fresh key at the end, exactly as dict insertion order behaves).
- Timestamps (`datetime.now().isoformat()` stored and later re-parsed with
  `datetime.fromisoformat`, a lossless round trip) are modelled as a record
  carrying the epoch time in seconds as an exact rational plus the
  datetime-derived hour-of-day and weekday name.  The wall clock is passed
  explicitly to the tracking calls.
- Python floats are modelled as exact rationals.
- The only fallible code path the claims touch is a dict subscript that can
  raise KeyError; it is embedded with `Except PyErr`.
-/
import Mathlib

namespace NeuralGate

/-- Open key-value maps (`metadata` / `context`); the analyzers never read
their contents, only store them, so values are modelled as strings. -/
abbrev Metadata := List (String × String)

/-- A timestamp: epoch seconds (exact rational) together with the
datetime-derived hour-of-day and weekday name used by the time analyzer. -/
structure TS where
  seconds : ℚ
  hour : Nat
  dayName : String
deriving DecidableEq

/-- An event record, as built by `track_event`. -/
structure Event where
  type : String
  user_id : String
  timestamp : TS
  metadata : Metadata
deriving DecidableEq

/-- An error occurrence record, as built by `track_error`. -/
structure ErrorRec where
  user_id : String
  timestamp : TS
  context : Metadata
deriving DecidableEq

/-- The mutable attributes of `UsagePatternAnalyzer` (see `__init__`):
`events`, `user_sessions`, `feature_usage`, `error_patterns`. -/
structure AnalyzerState where
  events : List Event
  user_sessions : List (String × List Event)
  feature_usage : List (String × Nat)
  error_patterns : List (String × List ErrorRec)
deriving DecidableEq

/-- The freshly constructed engine: everything empty. -/
def initState : AnalyzerState := ⟨[], [], [], []⟩

section DictHelpers

variable {κ β : Type} [DecidableEq κ]

/-- `d[k]` with a default, on an insertion-ordered association list. -/
def lookupD (l : List (κ × β)) (k : κ) (d : β) : β :=
  match l with
  | [] => d
  | (k', v) :: rest => if k' = k then v else lookupD rest k d

/-- `d.get(k)` on an insertion-ordered association list. -/
def dictLookup (l : List (κ × β)) (k : κ) : Option β :=
  match l with
  | [] => none
  | (k', v) :: rest => if k' = k then some v else dictLookup rest k

/-- `defaultdict(int)`: `d[k] += 1`.  An existing key is updated in place;
a new key is appended at the end (dict insertion order). -/
def incr (l : List (κ × Nat)) (k : κ) : List (κ × Nat) :=
  match l with
  | [] => [(k, 1)]
  | (k', v) :: rest => if k' = k then (k', v + 1) :: rest else (k', v) :: incr rest k

/-- `defaultdict(list)`: `d[k].append(x)`.  An existing key is updated in
place; a new key is appended at the end (dict insertion order). -/
def appendAt (l : List (κ × List β)) (k : κ) (x : β) : List (κ × List β) :=
  match l with
  | [] => [(k, [x])]
  | (k', v) :: rest => if k' = k then (k', v ++ [x]) :: rest else (k', v) :: appendAt rest k x

/-- Index of the first occurrence of `k` in `l` (length of `l` if absent);
used to talk about "earliest in append order". -/
def firstIdx (l : List κ) (k : κ) : Nat :=
  match l with
  | [] => 0
  | a :: rest => if a = k then 0 else firstIdx rest k + 1

/-- The distinct elements of `l` in first-occurrence order — exactly the
key order a Python dict ends up with after inserting each element of `l`. -/
def firstDedup (l : List κ) : List κ :=
  l.foldl (fun acc k => if k ∈ acc then acc else acc ++ [k]) []

end DictHelpers

/-- The characters of the reserved `"feature_"` naming convention. -/
def featureChars : List Char := "feature_".data

/-- CPython `str.replace("feature_", "")` on the character list: removes
non-overlapping occurrences scanning left to right.  The fuel argument only
makes the recursion structural (so the kernel can evaluate it); each step
consumes at least one character, so any fuel of at least the list length —
`removeFeature` passes exactly the length — runs the scan to completion. -/
def stripFeatureFuel : Nat → List Char → List Char
  | 0, l => l
  | _ + 1, [] => []
  | fuel + 1, c :: rest =>
    if featureChars.isPrefixOf (c :: rest) then
      stripFeatureFuel fuel ((c :: rest).drop 8)
    else
      c :: stripFeatureFuel fuel rest

/-- `event_type.replace("feature_", "")` (line 35 of the source). -/
def removeFeature (s : String) : String := ⟨stripFeatureFuel s.data.length s.data⟩

/-- `event_type.startswith("feature_")` (line 34 of the source). -/
def startsFeature (s : String) : Bool := featureChars.isPrefixOf s.data

/-- `track_event`: builds the event record, appends it to `events` and to
the user's session list, and — when the type starts with `"feature_"` —
bumps the feature counter keyed by the type with every `"feature_"`
occurrence removed (`str.replace` removes all, not just the leading one).
The source performs no validation and has no raise path. -/
def trackEvent (event_type user_id : String) (metadata : Metadata) (now : TS)
    (s : AnalyzerState) : AnalyzerState :=
  let event : Event := ⟨event_type, user_id, now, metadata⟩
  { s with
    events := s.events ++ [event]
    user_sessions := appendAt s.user_sessions user_id event
    feature_usage :=
      if startsFeature event_type then
        incr s.feature_usage (removeFeature event_type)
      else s.feature_usage }

/-- `track_error`: appends an occurrence record under its error type; no
other attribute is touched (in particular not `events`/`user_sessions`). -/
def trackError (error_type user_id : String) (context : Metadata) (now : TS)
    (s : AnalyzerState) : AnalyzerState :=
  { s with error_patterns := appendAt s.error_patterns error_type ⟨user_id, now, context⟩ }

/-- One ingestion call, with the wall-clock timestamp made explicit. -/
inductive Op
  | event (event_type user_id : String) (metadata : Metadata) (now : TS)
  | error (error_type user_id : String) (context : Metadata) (now : TS)

/-- Apply one ingestion call to the engine state. -/
def step (s : AnalyzerState) : Op → AnalyzerState
  | .event t u m now => trackEvent t u m now s
  | .error t u c now => trackError t u c now s

/-- The engine state reached from a fresh engine by a sequence of
`track_event` / `track_error` calls. -/
def run (ops : List Op) : AnalyzerState := ops.foldl step initState

/-- One feature's row in the adoption analysis
(`total_uses`, `unique_users`, `adoption_rate`, `status`). -/
structure FeatureData where
  total_uses : Nat
  unique_users : Nat
  adoption_rate : ℚ
  status : String
deriving DecidableEq

/-- `_get_adoption_status` (float thresholds as exact rationals). -/
def getAdoptionStatus (rate : ℚ) : String :=
  if rate ≥ 7/10 then "high_adoption"
  else if rate ≥ 3/10 then "moderate_adoption"
  else "low_adoption"

/-- The `users_using_feature` set built in `analyze_feature_adoption`:
the distinct ids of users owning at least one event whose type equals
`"feature_" + feature` (a Python `set`; only its size is consumed). -/
def usersUsingFeature (s : AnalyzerState) (feature : String) : List String :=
  ((s.user_sessions.filter
      (fun p => p.2.any (fun e => e.type == "feature_" ++ feature))).map
    (fun p => p.1)).dedup

/-- One iteration of the `for feature, count in self.feature_usage.items()`
loop body of `analyze_feature_adoption`. -/
def adoptionEntry (s : AnalyzerState) (total_users : Nat) (feature : String)
    (count : Nat) : FeatureData :=
  let unique := (usersUsingFeature s feature).length
  let rate : ℚ := (unique : ℚ) / (total_users : ℚ)
  ⟨count, unique, rate, getAdoptionStatus rate⟩

/-- `_generate_adoption_insights`. -/
def generateAdoptionInsights (adoption_rates : List (String × FeatureData)) :
    List String :=
  let low := (adoption_rates.filter (fun p => p.2.adoption_rate < 3/10)).map
    (fun p => p.1)
  let lowJoined := String.intercalate ", " low
  let ins₁ : List String :=
    if low ≠ [] then
      [s!"Low adoption detected for: {lowJoined}. Consider improving discoverability or user education."]
    else []
  let hi := (adoption_rates.filter
      (fun p => p.2.adoption_rate > 7/10 ∧ p.2.total_uses > 100)).map
    (fun p => p.1)
  let hiJoined := String.intercalate ", " hi
  let ins₂ : List String :=
    if hi ≠ [] then
      [s!"High-value features: {hiJoined}. Consider expanding these capabilities."]
    else []
  ins₁ ++ ins₂

/-- `analyze_feature_adoption` returns either the
`{"error": "No usage data available"}` sentinel or the full result dict
`{"total_features", "features", "insights"}`. -/
inductive AdoptionResult
  | noData
  | ok (total_features : Nat) (features : List (String × FeatureData))
      (insights : List String)
deriving DecidableEq

/-- `analyze_feature_adoption`. -/
def analyzeFeatureAdoption (s : AnalyzerState) : AdoptionResult :=
  let total_users := s.user_sessions.length
  if total_users = 0 then .noData
  else
    let adoption_rates :=
      s.feature_usage.map (fun p => (p.1, adoptionEntry s total_users p.1 p.2))
    .ok adoption_rates.length adoption_rates
      (generateAdoptionInsights adoption_rates)

/-- The `"features"` entries of an adoption result (empty on the no-data
sentinel, which carries no `"features"` key). -/
def adoptionFeatures : AdoptionResult → List (String × FeatureData)
  | .noData => []
  | .ok _ features _ => features

/-- `ai_config.SUGGESTION_THRESHOLDS` verbatim. -/
def SUGGESTION_THRESHOLDS : List (String × ℚ) :=
  [("feature_usage_high", 100),
   ("feature_usage_low", 10),
   ("error_rate_critical", 5/100),
   ("error_rate_warning", 2/100),
   ("response_time_critical", 2000),
   ("response_time_warning", 1000),
   ("adoption_rate_low", 3/10),
   ("adoption_rate_high", 7/10)]

/-- Python exceptions the embedded code can raise. -/
inductive PyErr
  | keyError (key : String)
deriving DecidableEq

/-- The adjacent-pair strings `events[i].type ++ " -> " ++ events[i+1].type`
produced by the inner loop of `analyze_user_journeys` for one session. -/
def adjPatterns : List Event → List String
  | a :: b :: rest => (a.type ++ " -> " ++ b.type) :: adjPatterns (b :: rest)
  | _ => []

/-- The `journey_patterns` defaultdict after the double loop of
`analyze_user_journeys` (sessions with fewer than 2 events are skipped). -/
def journeyPatterns (s : AnalyzerState) : List (String × Nat) :=
  s.user_sessions.foldl
    (fun acc p =>
      if p.2.length < 2 then acc else (adjPatterns p.2).foldl incr acc) []

/-- Stable insertion of one item into a count-descending list (an item goes
after every earlier item of greater-or-equal count). -/
def insertDesc (x : String × Nat) : List (String × Nat) → List (String × Nat)
  | [] => [x]
  | y :: ys => if y.2 ≥ x.2 then y :: insertDesc x ys else x :: y :: ys

/-- `sorted(journey_patterns.items(), key=lambda x: x[1], reverse=True)`:
stable sort by descending count. -/
def sortDesc (l : List (String × Nat)) : List (String × Nat) :=
  l.foldl (fun acc x => insertDesc x acc) []

/-- `_generate_journey_insights`: each loop iteration subscripts
`SUGGESTION_THRESHOLDS["pattern_frequency_threshold"]`, which raises
`KeyError` when the key is absent from the config dict. -/
def generateJourneyInsights : List (String × Nat) → Except PyErr (List String)
  | [] => .ok []
  | (pattern, count) :: rest =>
    match dictLookup SUGGESTION_THRESHOLDS "pattern_frequency_threshold" with
    | none => .error (.keyError "pattern_frequency_threshold")
    | some th =>
      match generateJourneyInsights rest with
      | .error e => .error e
      | .ok ins =>
        if (count : ℚ) > th then
          .ok (s!"Common pattern \x27{pattern}\x27 occurs {count} times. Consider optimizing this workflow." :: ins)
        else .ok ins

/-- The result dict of `analyze_user_journeys`. -/
structure JourneyResult where
  total_patterns : Nat
  most_common_patterns : List (String × Nat)
  insights : List String
deriving DecidableEq

/-- `analyze_user_journeys` (fallible: insight generation subscripts a
missing config key). -/
def analyzeUserJourneys (s : AnalyzerState) : Except PyErr JourneyResult :=
  let jp := journeyPatterns s
  let sorted_patterns := sortDesc jp
  match generateJourneyInsights (sorted_patterns.take 10) with
  | .error e => .error e
  | .ok ins => .ok ⟨jp.length, sorted_patterns.take 10, ins⟩

/-- One error type's row in the error analysis. -/
structure ErrorData where
  occurrences : Nat
  affected_users : Nat
  frequency_per_day : ℚ
  severity : String
deriving DecidableEq

/-- `_assess_error_severity`. -/
def assessErrorSeverity (occurrences affected_users : Nat) : String :=
  if occurrences > 50 ∨ affected_users > 10 then "critical"
  else if occurrences > 20 ∨ affected_users > 5 then "high"
  else if occurrences > 5 then "medium"
  else "low"

/-- Python `max` over a nonempty list of rationals (`0` pad for `[]`,
never used on that branch). -/
def listMax : List ℚ → ℚ
  | [] => 0
  | x :: xs => xs.foldl max x

/-- Python `min` over a nonempty list of rationals. -/
def listMin : List ℚ → ℚ
  | [] => 0
  | x :: xs => xs.foldl min x

/-- One iteration of the `for error_type, occurrences in
self.error_patterns.items()` loop of `analyze_error_patterns`:
`frequency = len(occurrences) / max(time_span.total_seconds()/86400, 1)`. -/
def errorEntry (occurrences : List ErrorRec) : ErrorData :=
  let affected := ((occurrences.map (fun e => e.user_id)).dedup).length
  let timestamps := occurrences.map (fun e => e.timestamp.seconds)
  let frequency : ℚ :=
    if timestamps ≠ [] then
      (occurrences.length : ℚ) / max ((listMax timestamps - listMin timestamps) / 86400) 1
    else 0
  ⟨occurrences.length, affected, frequency,
    assessErrorSeverity occurrences.length affected⟩

/-- The result dict of `analyze_error_patterns`. -/
structure ErrorsResult where
  total_error_types : Nat
  errors : List (String × ErrorData)
  insights : List String
deriving DecidableEq

/-- `_generate_error_insights`. -/
def generateErrorInsights (error_analysis : List (String × ErrorData)) :
    List String :=
  let critical := (error_analysis.filter
      (fun p => p.2.severity == "critical" || p.2.severity == "high")).map
    (fun p => p.1)
  let joined := String.intercalate ", " critical
  if critical ≠ [] then
    [s!"Critical/High severity errors detected: {joined}. Immediate attention required."]
  else []

/-- `analyze_error_patterns`. -/
def analyzeErrorPatterns (s : AnalyzerState) : ErrorsResult :=
  let error_analysis := s.error_patterns.map (fun p => (p.1, errorEntry p.2))
  ⟨error_analysis.length, error_analysis, generateErrorInsights error_analysis⟩

/-- The hour-of-day of every event, in append order. -/
def hoursOf (s : AnalyzerState) : List Nat :=
  s.events.map (fun e => e.timestamp.hour)

/-- The weekday name of every event, in append order. -/
def daysOf (s : AnalyzerState) : List String :=
  s.events.map (fun e => e.timestamp.dayName)

/-- The user id of every event, in append order. -/
def eventUsers (s : AnalyzerState) : List String :=
  s.events.map (fun e => e.user_id)

/-- A `defaultdict(int)` frequency table built by bumping each element in
turn — key order is first-occurrence order, as in the source's single pass
over `self.events`. -/
def buildCounts {κ : Type} [DecidableEq κ] (l : List κ) : List (κ × Nat) :=
  l.foldl (fun acc k => incr acc k) []

/-- Python `max(items, key=lambda x: x[1])`: keeps the current best unless
a strictly greater value appears, so the first maximum wins. -/
def pyMaxBySnd {κ : Type} (a : κ × Nat) (l : List (κ × Nat)) : κ × Nat :=
  l.foldl (fun best x => if x.2 > best.2 then x else best) a

/-- The result dict of `analyze_time_patterns`. -/
structure TimeResult where
  hourly_distribution : List (Nat × Nat)
  daily_distribution : List (String × Nat)
  peak_hour : Nat
  peak_day : String
  insights : List String
deriving DecidableEq

/-- `analyze_time_patterns`.  The source fills `hourly_activity` and
`daily_activity` in one pass over `self.events`; the two dicts are
independent, so each equals a single-pass build over the mapped list. -/
def analyzeTimePatterns (s : AnalyzerState) : TimeResult :=
  let hourly_activity := buildCounts (hoursOf s)
  let daily_activity := buildCounts (daysOf s)
  let peak_hour : Nat × Nat :=
    match hourly_activity with
    | [] => (0, 0)
    | x :: xs => pyMaxBySnd x xs
  let peak_day : String × Nat :=
    match daily_activity with
    | [] => ("", 0)
    | x :: xs => pyMaxBySnd x xs
  let ph := peak_hour.1
  let phc := peak_hour.2
  let pd := peak_day.1
  let pdc := peak_day.2
  ⟨hourly_activity, daily_activity, ph, pd,
    [s!"Peak usage hour: {ph}:00 with {phc} events",
     s!"Peak usage day: {pd} with {pdc} events",
     "Consider scheduling maintenance during low-activity periods"]⟩

/-- `"=" * 80`. -/
def eq80 : String := String.mk (List.replicate 80 '=')

/-- The `"{:.1%}"` rendering of an adoption rate: percentage with one
decimal digit (CPython rounds the underlying float to the nearest tenth of
a percent; exact halves follow the rational rounding here — no claim
depends on the rendered text). -/
def fmtPercent (q : ℚ) : String :=
  let t : ℤ := round (q * 1000)
  let ip := t / 10
  let fp := (t % 10).toNat
  s!"{ip}.{fp}%"

/-- The FEATURE ADOPTION ANALYSIS block of the report: the per-feature
lines are emitted only when the `"features"` key is present (i.e. not the
no-data sentinel), and likewise the insights block. -/
def reportAdoptionLines : AdoptionResult → List String
  | .noData => []
  | .ok _ features insights =>
    (features.foldr (fun p acc =>
      let f := p.1
      let tu := p.2.total_uses
      let uu := p.2.unique_users
      let rate := fmtPercent p.2.adoption_rate
      let st := p.2.status
      s!"\n{f}:" :: s!"  Total Uses: {tu}" :: s!"  Unique Users: {uu}" ::
        s!"  Adoption Rate: {rate}" :: s!"  Status: {st}" :: acc) [])
    ++ ("\nKey Insights:" :: insights.map (fun i => s!"  • {i}"))

/-- The per-error lines of the ERROR PATTERN ANALYSIS block. -/
def reportErrorLines (errors : List (String × ErrorData)) : List String :=
  errors.foldr (fun p acc =>
    let et := p.1
    let occ := p.2.occurrences
    let au := p.2.affected_users
    let sev := p.2.severity
    s!"\n{et}:" :: s!"  Occurrences: {occ}" :: s!"  Affected Users: {au}" ::
      s!"  Severity: {sev}" :: acc) []

/-- `generate_comprehensive_report`.  The generation wall-clock string is a
parameter (`datetime.now().strftime(...)` at call time).  The call into
`analyze_user_journeys` propagates its KeyError, so the report is fallible
too; no attribute of the engine is ever assigned. -/
def generateComprehensiveReport (now : String) (s : AnalyzerState) :
    Except PyErr String :=
  let ne := s.events.length
  let nu := s.user_sessions.length
  let header := [eq80, "USAGE PATTERN ANALYSIS REPORT", eq80,
    s!"\nGenerated: {now}", s!"Total Events Tracked: {ne}",
    s!"Unique Users: {nu}\n"]
  let adoption := analyzeFeatureAdoption s
  let adoptionBlock := ("\n" ++ eq80) :: "FEATURE ADOPTION ANALYSIS" :: eq80 ::
    reportAdoptionLines adoption
  match analyzeUserJourneys s with
  | .error e => .error e
  | .ok journeys =>
    let tp := journeys.total_patterns
    let journeyBlock := ("\n" ++ eq80) :: "USER JOURNEY PATTERNS" :: eq80 ::
      s!"\nTotal Unique Patterns: {tp}" :: "\nMost Common Patterns:" ::
      (journeys.most_common_patterns.take 5).map (fun p =>
        let pat := p.1
        let c := p.2
        s!"  {c}x: {pat}")
    let errors := analyzeErrorPatterns s
    let tet := errors.total_error_types
    let errorBlock := ("\n" ++ eq80) :: "ERROR PATTERN ANALYSIS" :: eq80 ::
      s!"\nTotal Error Types: {tet}" :: reportErrorLines errors.errors
    let time_patterns := analyzeTimePatterns s
    let timeBlock := ("\n" ++ eq80) :: "TIME PATTERN ANALYSIS" :: eq80 ::
      time_patterns.insights.map (fun i => s!"  • {i}")
    .ok (String.intercalate "\n"
      (header ++ adoptionBlock ++ journeyBlock ++ errorBlock ++ timeBlock ++
        ["\n" ++ eq80]))

/-- The method call `self.analyze_feature_adoption()` as a state
transformer: the body reads `self` but assigns to no attribute, so the
post-state is the pre-state. -/
def callAnalyzeFeatureAdoption (s : AnalyzerState) :
    AdoptionResult × AnalyzerState :=
  (analyzeFeatureAdoption s, s)

/-- The method call `self.analyze_user_journeys()` as a state transformer
(no attribute is assigned, also on the KeyError path). -/
def callAnalyzeUserJourneys (s : AnalyzerState) :
    Except PyErr JourneyResult × AnalyzerState :=
  (analyzeUserJourneys s, s)

/-- The method call `self.analyze_error_patterns()` as a state
transformer. -/
def callAnalyzeErrorPatterns (s : AnalyzerState) :
    ErrorsResult × AnalyzerState :=
  (analyzeErrorPatterns s, s)

/-- The method call `self.analyze_time_patterns()` as a state
transformer. -/
def callAnalyzeTimePatterns (s : AnalyzerState) : TimeResult × AnalyzerState :=
  (analyzeTimePatterns s, s)

/-- The method call `self.generate_comprehensive_report()` as a state
transformer. -/
def callGenerateComprehensiveReport (now : String) (s : AnalyzerState) :
    Except PyErr String × AnalyzerState :=
  (generateComprehensiveReport now s, s)

/-- Follows the words of claim C2, not the source: the number of distinct
user ids seen anywhere in the log, where user ids recorded only through
`track_error` also count.  Used to compare the source's denominator
against the claimed one. -/
def claimTotalUsersWithErrors (s : AnalyzerState) : Nat :=
  (firstDedup (s.events.map (fun e => e.user_id) ++
    (s.error_patterns.map (fun p => p.2.map (fun r => r.user_id))).flatten)).length

/-- A fixed timestamp for concrete runs. -/
def ts0 : TS := ⟨0, 0, "Monday"⟩

/-- Concrete run for C1: one user with two events, hence one journey
pattern. -/
def opsC1 : List Op :=
  [.event "login" "u1" [] ts0, .event "dashboard" "u1" [] ts0]

/-- Concrete run for C2's counterexample: one event user plus a user seen
only through `track_error`. -/
def opsC2 : List Op :=
  [.event "feature_x" "u1" [] ts0, .error "boom" "u2" [] ts0]

/-- Concrete run for C2's witness: a single event user. -/
def opsC2w : List Op := [.event "feature_a" "u1" [] ts0]

/-- The adoption row for feature `"a"` after `opsC2w`, written as the very
expression the analyzer computes (its rational field is kept unevaluated;
rational arithmetic is not kernel-reducible). -/
def dataC2w : FeatureData :=
  adoptionEntry (run opsC2w) (run opsC2w).user_sessions.length "a" 1

/-- The `(feature, total_uses, unique_users)` rows of an adoption result —
the integer projections, used to state concrete outcomes without forcing
rational arithmetic. -/
def featureUseCounts (r : AdoptionResult) : List (String × Nat × Nat) :=
  (adoptionFeatures r).map (fun p => (p.1, p.2.total_uses, p.2.unique_users))

/-- The reported adoption rate of one feature of an adoption result. -/
def adoptionRateOf (r : AdoptionResult) (f : String) : Option ℚ :=
  (dictLookup (adoptionFeatures r) f).map (fun d => d.adoption_rate)

/-- Concrete occurrences for C5: the same error twice on the same calendar
day, 100 s and 200 s into the epoch. -/
def opsC5 : List Op :=
  [.error "timeout" "u1" [] ⟨100, 0, "Monday"⟩,
   .error "timeout" "u2" [] ⟨200, 0, "Monday"⟩]

/-- The occurrence list stored under `"timeout"` after `opsC5`. -/
def occsC5 : List ErrorRec :=
  [⟨"u1", ⟨100, 0, "Monday"⟩, []⟩, ⟨"u2", ⟨200, 0, "Monday"⟩, []⟩]

/-- Concrete run for C6's counterexample.  The first event's type contains
an occurrence of `"feature_"` that `str.replace` re-creates while removing
others, so its counter key is `"feature_x"` with one use; the other two
events have type `"feature_feature_x"`, whose counter key is `"x"` but
which are exactly the events the adoption pass attributes to feature
`"feature_x"` — two distinct users. -/
def opsC6 : List Op :=
  [.event "feature_feafeature_ture_x" "uA" [] ts0,
   .event "feature_feature_x" "uB" [] ts0,
   .event "feature_feature_x" "uC" [] ts0]

/-- Concrete run for C6's witness: one clean feature name. -/
def opsC6w : List Op := [.event "feature_a" "u1" [] ts0]

/-- The adoption row for feature `"a"` after `opsC6w`, written as the
expression the analyzer computes. -/
def dataC6w : FeatureData :=
  adoptionEntry (run opsC6w) (run opsC6w).user_sessions.length "a" 1

/-- Concrete run for C9's witness: hours 14, 9, 9, 14 — a tie between
hours 9 and 14 in which hour 14 was seen first. -/
def opsC9 : List Op :=
  [.event "a" "u1" [] ⟨0, 14, "Monday"⟩,
   .event "b" "u1" [] ⟨0, 9, "Monday"⟩,
   .event "c" "u2" [] ⟨0, 9, "Tuesday"⟩,
   .event "d" "u2" [] ⟨0, 14, "Tuesday"⟩]

/-- Invariants every reachable engine state satisfies: the two dicts have
no duplicate keys, `user_sessions` is keyed by the distinct event users in
first-occurrence order, and — for feature names that do not themselves
contain the `"feature_"` pattern — the number of users owning an event of
type `"feature_" ++ f` never exceeds the `f` counter. -/
structure Inv (s : AnalyzerState) : Prop where
  fuNodup : (s.feature_usage.map (fun p => p.1)).Nodup
  usKeys : s.user_sessions.map (fun p => p.1) = firstDedup (eventUsers s)
  ineq : ∀ f : String, ¬ featureChars <:+: f.data →
    s.user_sessions.countP
      (fun p => p.2.any (fun e => e.type == "feature_" ++ f)) ≤
    lookupD s.feature_usage f 0

section DictLemmas

variable {κ β : Type} [DecidableEq κ]

theorem lookupD_incr (l : List (κ × Nat)) (k k' : κ) :
    lookupD (incr l k) k' 0 = lookupD l k' 0 + if k = k' then 1 else 0 := by
  induction l with
  | nil =>
    by_cases h : k = k' <;> simp [incr, lookupD, h]
  | cons p rest ih =>
    obtain ⟨a, b⟩ := p
    by_cases hak : a = k
    · subst hak
      by_cases hk' : a = k' <;> simp [incr, lookupD, hk']
    · by_cases hk' : a = k'
      · subst hk'
        have : ¬ k = a := fun h => hak h.symm
        simp [incr, lookupD, hak, this]
      · simp [incr, lookupD, hak, hk', ih]

theorem incr_ne_nil (l : List (κ × Nat)) (k : κ) : incr l k ≠ [] := by
  cases l with
  | nil => simp [incr]
  | cons p rest =>
    obtain ⟨a, b⟩ := p
    by_cases h : a = k <;> simp [incr, h]

theorem keys_incr (l : List (κ × Nat)) (k : κ) :
    (incr l k).map (fun p => p.1) =
      if k ∈ l.map (fun p => p.1) then l.map (fun p => p.1)
      else l.map (fun p => p.1) ++ [k] := by
  induction l with
  | nil => simp [incr]
  | cons p rest ih =>
    obtain ⟨a, b⟩ := p
    by_cases hak : a = k
    · subst hak
      simp [incr]
    · have hka : ¬ k = a := fun h => hak h.symm
      by_cases hmem : k ∈ rest.map (fun p => p.1) <;>
        simp [incr, hak, hka, hmem, ih]

theorem keys_appendAt (l : List (κ × List β)) (k : κ) (x : β) :
    (appendAt l k x).map (fun p => p.1) =
      if k ∈ l.map (fun p => p.1) then l.map (fun p => p.1)
      else l.map (fun p => p.1) ++ [k] := by
  induction l with
  | nil => simp [appendAt]
  | cons p rest ih =>
    obtain ⟨a, b⟩ := p
    by_cases hak : a = k
    · subst hak
      simp [appendAt]
    · have hka : ¬ k = a := fun h => hak h.symm
      by_cases hmem : k ∈ rest.map (fun p => p.1) <;>
        simp [appendAt, hak, hka, hmem, ih]

theorem lookupD_eq_of_mem {l : List (κ × β)} {k : κ} {v : β} (d : β)
    (hmem : (k, v) ∈ l) (hnd : (l.map (fun p => p.1)).Nodup) :
    lookupD l k d = v := by
  induction l with
  | nil => simp at hmem
  | cons p rest ih =>
    obtain ⟨a, b⟩ := p
    simp only [List.map_cons, List.nodup_cons] at hnd
    rcases List.mem_cons.mp hmem with h | h
    · have ha : a = k ∧ b = v := by
        have h' := h.symm
        simp only [Prod.mk.injEq] at h'
        exact h'
      obtain ⟨rfl, rfl⟩ := ha
      simp [lookupD]
    · have hak : a ≠ k := by
        intro he
        subst he
        exact hnd.1 (List.mem_map.mpr ⟨(a, v), h, rfl⟩)
      simp [lookupD, hak, ih h hnd.2]

theorem countP_appendAt_any_of_neg (q : β → Bool) (l : List (κ × List β))
    (k : κ) (x : β) (hx : q x = false) :
    (appendAt l k x).countP (fun p => p.2.any q) =
      l.countP (fun p => p.2.any q) := by
  induction l with
  | nil => simp [appendAt, List.countP_cons, hx]
  | cons p rest ih =>
    obtain ⟨a, b⟩ := p
    by_cases hak : a = k
    · subst hak
      simp [appendAt, List.countP_cons, List.any_append, hx]
    · simp [appendAt, hak, List.countP_cons, ih]

theorem countP_appendAt_any_le (q : β → Bool) (l : List (κ × List β))
    (k : κ) (x : β) :
    (appendAt l k x).countP (fun p => p.2.any q) ≤
      l.countP (fun p => p.2.any q) + 1 := by
  induction l with
  | nil =>
    simp only [appendAt, List.countP_cons, List.countP_nil]
    split <;> omega
  | cons p rest ih =>
    obtain ⟨a, b⟩ := p
    by_cases hak : a = k
    · subst hak
      simp only [appendAt, if_pos rfl, List.countP_cons, List.any_append]
      cases hb : b.any q <;> cases hx : q x <;> simp [hb, hx]
    · simp only [appendAt, if_neg hak, List.countP_cons]
      split <;> omega

theorem firstIdx_append_of_mem {l : List κ} {k : κ} (l' : List κ)
    (h : k ∈ l) : firstIdx (l ++ l') k = firstIdx l k := by
  induction l with
  | nil => simp at h
  | cons a rest ih =>
    by_cases hak : a = k
    · simp [firstIdx, hak]
    · have : k ∈ rest := by
        rcases List.mem_cons.mp h with h' | h'
        · exact absurd h'.symm hak
        · exact h'
      simp [firstIdx, hak, ih this]

theorem firstIdx_append_of_not_mem {l : List κ} {k : κ} (l' : List κ)
    (h : k ∉ l) : firstIdx (l ++ l') k = l.length + firstIdx l' k := by
  induction l with
  | nil => simp
  | cons a rest ih =>
    have hak : a ≠ k := fun h' => h (h' ▸ List.mem_cons_self a rest)
    have : k ∉ rest := fun h' => h (List.mem_cons_of_mem a h')
    simp [firstIdx, hak, ih this]
    omega

theorem firstIdx_lt_length {l : List κ} {k : κ} (h : k ∈ l) :
    firstIdx l k < l.length := by
  induction l with
  | nil => simp at h
  | cons a rest ih =>
    by_cases hak : a = k
    · simp [firstIdx, hak]
    · have : k ∈ rest := by
        rcases List.mem_cons.mp h with h' | h'
        · exact absurd h'.symm hak
        · exact h'
      simp only [firstIdx, if_neg hak, List.length_cons]
      exact Nat.succ_lt_succ (ih this)

theorem mem_firstDedup_fold (l : List κ) (acc : List κ) (k : κ) :
    k ∈ l.foldl (fun acc k => if k ∈ acc then acc else acc ++ [k]) acc ↔
      k ∈ acc ∨ k ∈ l := by
  induction l generalizing acc with
  | nil => simp
  | cons a rest ih =>
    simp only [List.foldl_cons, ih]
    by_cases ha : a ∈ acc
    · simp only [if_pos ha]
      constructor
      · rintro (h | h)
        · exact Or.inl h
        · exact Or.inr (List.mem_cons_of_mem a h)
      · rintro (h | h)
        · exact Or.inl h
        · rcases List.mem_cons.mp h with rfl | h'
          · exact Or.inl ha
          · exact Or.inr h'
    · simp only [if_neg ha, List.mem_append, List.mem_singleton]
      constructor
      · rintro ((h | rfl) | h)
        · exact Or.inl h
        · exact Or.inr (List.mem_cons_self k rest)
        · exact Or.inr (List.mem_cons_of_mem a h)
      · rintro (h | h)
        · exact Or.inl (Or.inl h)
        · rcases List.mem_cons.mp h with rfl | h'
          · exact Or.inl (Or.inr rfl)
          · exact Or.inr h'

theorem mem_firstDedup (l : List κ) (k : κ) :
    k ∈ firstDedup l ↔ k ∈ l := by
  have := mem_firstDedup_fold l [] k
  simpa [firstDedup] using this

theorem firstDedup_append_singleton (l : List κ) (x : κ) :
    firstDedup (l ++ [x]) =
      if x ∈ firstDedup l then firstDedup l else firstDedup l ++ [x] := by
  simp [firstDedup, List.foldl_append]

end DictLemmas

theorem firstDedup_nodup {κ : Type} [DecidableEq κ] (l : List κ) :
    (firstDedup l).Nodup := by
  suffices h : ∀ acc : List κ, acc.Nodup →
      (l.foldl (fun acc k => if k ∈ acc then acc else acc ++ [k]) acc).Nodup by
    exact h [] List.nodup_nil
  induction l with
  | nil => intro acc hacc; exact hacc
  | cons a rest ih =>
    intro acc hacc
    simp only [List.foldl_cons]
    by_cases ha : a ∈ acc
    · rw [if_pos ha]; exact ih acc hacc
    · rw [if_neg ha]
      refine ih _ ?_
      rw [List.nodup_append]
      exact ⟨hacc, List.nodup_singleton a, by
        intro x hx hxa
        exact ha ((List.mem_singleton.mp hxa) ▸ hx)⟩

theorem isPrefixOf_append_self (p l : List Char) :
    p.isPrefixOf (p ++ l) = true := by
  induction p with
  | nil => simp [List.isPrefixOf]
  | cons a as ih => simp [List.isPrefixOf, ih]

theorem exists_append_of_isPrefixOf {p s : List Char}
    (h : p.isPrefixOf s = true) : ∃ t, s = p ++ t := by
  induction p generalizing s with
  | nil => exact ⟨s, rfl⟩
  | cons a as ih =>
    cases s with
    | nil => simp [List.isPrefixOf] at h
    | cons b bs =>
      simp only [List.isPrefixOf, Bool.and_eq_true, beq_iff_eq] at h
      obtain ⟨rfl, h2⟩ := h
      obtain ⟨t, rfl⟩ := ih h2
      exact ⟨t, rfl⟩

theorem stripFeatureFuel_no_occur (fuel : Nat) :
    ∀ l : List Char, ¬ featureChars <:+: l → stripFeatureFuel fuel l = l := by
  induction fuel with
  | zero => intro l _; rfl
  | succ n ih =>
    intro l h
    cases l with
    | nil => rfl
    | cons c rest =>
      have hpre : featureChars.isPrefixOf (c :: rest) = false := by
        cases hp : featureChars.isPrefixOf (c :: rest)
        · rfl
        · obtain ⟨t, ht⟩ := exists_append_of_isPrefixOf hp
          exact absurd ⟨[], t, by simp [ht]⟩ h
      have hrest : ¬ featureChars <:+: rest := by
        rintro ⟨s1, t1, hst⟩
        exact h ⟨c :: s1, t1, by simp [← hst]⟩
      simp [stripFeatureFuel, hpre, ih rest hrest]

theorem stripFeatureFuel_concat (m : Nat) {f : List Char}
    (h : ¬ featureChars <:+: f) :
    stripFeatureFuel (m + 1) (featureChars ++ f) = f := by
  rw [show featureChars ++ f = 'f' :: (['e','a','t','u','r','e','_'] ++ f)
    from rfl]
  simp only [stripFeatureFuel]
  rw [if_pos (show featureChars.isPrefixOf
      ('f' :: (['e','a','t','u','r','e','_'] ++ f)) = true from
    isPrefixOf_append_self featureChars f)]
  rw [show ('f' :: (['e','a','t','u','r','e','_'] ++ f)).drop 8 = f from by
    simp]
  exact stripFeatureFuel_no_occur m f h

theorem data_string_append (a b : String) : (a ++ b).data = a.data ++ b.data :=
  rfl

theorem startsFeature_concat (f : String) :
    startsFeature ("feature_" ++ f) = true := by
  unfold startsFeature
  rw [data_string_append]
  exact isPrefixOf_append_self _ _

theorem removeFeature_concat {f : String} (h : ¬ featureChars <:+: f.data) :
    removeFeature ("feature_" ++ f) = f := by
  unfold removeFeature
  rw [data_string_append]
  rw [show ("feature_".data ++ f.data).length = (7 + f.data.length) + 1 from by
    simp [featureChars]
    omega]
  rw [show "feature_".data = featureChars from rfl]
  rw [stripFeatureFuel_concat (7 + f.data.length) h]

theorem lookup_fu_step (t : String) (FU : List (String × Nat)) (f : String) :
    lookupD (if startsFeature t then incr FU (removeFeature t) else FU) f 0 =
      lookupD FU f 0 +
        (if startsFeature t = true ∧ removeFeature t = f then 1 else 0) := by
  by_cases hs : startsFeature t
  · rw [if_pos hs, lookupD_incr]
    by_cases hr : removeFeature t = f
    · simp [hs, hr]
    · simp [hs, hr]
  · have hs' : startsFeature t = false := by
      cases h : startsFeature t
      · rfl
      · exact absurd h hs
    simp [hs, hs']

theorem inv_trackEvent (t u : String) (m : Metadata) (now : TS)
    (s : AnalyzerState) (h : Inv s) : Inv (trackEvent t u m now s) := by
  constructor
  case fuNodup =>
    show ((if startsFeature t then incr s.feature_usage (removeFeature t)
        else s.feature_usage).map (fun p => p.1)).Nodup
    split
    · rw [keys_incr]
      split
      · exact h.fuNodup
      · rename_i hnotmem
        rw [List.nodup_append]
        refine ⟨h.fuNodup, List.nodup_singleton _, ?_⟩
        intro a hx hax
        exact hnotmem ((List.mem_singleton.mp hax) ▸ hx)
    · exact h.fuNodup
  case usKeys =>
    show (appendAt s.user_sessions u ⟨t, u, now, m⟩).map (fun p => p.1) =
      firstDedup (eventUsers (trackEvent t u m now s))
    have hev : eventUsers (trackEvent t u m now s) = eventUsers s ++ [u] := by
      simp [eventUsers, trackEvent]
    rw [keys_appendAt, hev, firstDedup_append_singleton, h.usKeys]
  case ineq =>
    intro f hf
    have hlook :
        lookupD (trackEvent t u m now s).feature_usage f 0 =
          lookupD s.feature_usage f 0 +
            (if startsFeature t = true ∧ removeFeature t = f then 1 else 0) :=
      lookup_fu_step t s.feature_usage f
    have hsess : (trackEvent t u m now s).user_sessions =
        appendAt s.user_sessions u ⟨t, u, now, m⟩ := rfl
    rw [hsess, hlook]
    by_cases ht : t = "feature_" ++ f
    · have hone : (if startsFeature t = true ∧ removeFeature t = f
          then 1 else 0) = 1 := by
        rw [if_pos]
        exact ⟨ht ▸ startsFeature_concat f, ht ▸ removeFeature_concat hf⟩
      rw [hone]
      have hle := countP_appendAt_any_le
        (fun e : Event => e.type == "feature_" ++ f) s.user_sessions u
        ⟨t, u, now, m⟩
      have := h.ineq f hf
      omega
    · have hq : ((⟨t, u, now, m⟩ : Event).type == "feature_" ++ f) = false :=
        beq_eq_false_iff_ne.mpr ht
      have hcount := countP_appendAt_any_of_neg
        (fun e : Event => e.type == "feature_" ++ f) s.user_sessions u
        ⟨t, u, now, m⟩ hq
      rw [hcount]
      have := h.ineq f hf
      split <;> omega

theorem inv_trackError (t u : String) (c : Metadata) (now : TS)
    (s : AnalyzerState) (h : Inv s) : Inv (trackError t u c now s) := by
  constructor
  · exact h.fuNodup
  · exact h.usKeys
  · exact h.ineq

theorem inv_initState : Inv initState := by
  constructor
  · simp [initState]
  · simp [initState, eventUsers, firstDedup]
  · intro f _
    simp [initState, lookupD]

theorem inv_run (ops : List Op) : Inv (run ops) := by
  suffices h : ∀ s, Inv s → Inv (ops.foldl step s) from
    h initState inv_initState
  induction ops with
  | nil => intro s hs; exact hs
  | cons op rest ih =>
    intro s hs
    simp only [List.foldl_cons]
    refine ih _ ?_
    cases op with
    | event t u m now => exact inv_trackEvent t u m now s hs
    | error t u c now => exact inv_trackError t u c now s hs

theorem adoption_mem {s : AnalyzerState} {feature : String} {data : FeatureData}
    (hmem : (feature, data) ∈ adoptionFeatures (analyzeFeatureAdoption s)) :
    s.user_sessions.length ≠ 0 ∧
      ∃ cnt, (feature, cnt) ∈ s.feature_usage ∧
        data = adoptionEntry s s.user_sessions.length feature cnt := by
  simp only [analyzeFeatureAdoption] at hmem
  by_cases h0 : s.user_sessions.length = 0
  · rw [if_pos h0] at hmem
    simp [adoptionFeatures] at hmem
  · rw [if_neg h0] at hmem
    simp only [adoptionFeatures] at hmem
    obtain ⟨⟨pf, pc⟩, hp, heq⟩ := List.mem_map.mp hmem
    simp only [Prod.mk.injEq] at heq
    obtain ⟨rfl, rfl⟩ := heq
    exact ⟨h0, pc, hp, rfl⟩

theorem usersUsing_length_le (s : AnalyzerState) (f : String) :
    (usersUsingFeature s f).length ≤ s.user_sessions.length := by
  unfold usersUsingFeature
  refine le_trans (List.Sublist.length_le (List.dedup_sublist _)) ?_
  rw [List.length_map]
  exact List.length_filter_le _ _

theorem usersUsing_eq_countP (s : AnalyzerState) (f : String)
    (hnd : (s.user_sessions.map (fun p => p.1)).Nodup) :
    (usersUsingFeature s f).length =
      s.user_sessions.countP
        (fun p => p.2.any (fun e => e.type == "feature_" ++ f)) := by
  unfold usersUsingFeature
  have hsub : ((s.user_sessions.filter
      (fun p => p.2.any (fun e => e.type == "feature_" ++ f))).map
        (fun p => p.1)).Sublist (s.user_sessions.map (fun p => p.1)) :=
    List.Sublist.map _ (List.filter_sublist _)
  have hnd2 := hnd.sublist hsub
  rw [List.dedup_eq_self.mpr hnd2, List.length_map,
    ← List.countP_eq_length_filter]

/-- Claim C3 (counterexample): the claim says a call with an empty
`user_id` raises `MalformedInputError` and appends nothing; the source
performs no validation, so the call completes normally and the event is
appended to the log. -/
theorem C3_track_event_counterexample :
    (trackEvent "login" "" [] ts0 initState).events =
      [⟨"login", "", ts0, []⟩] := rfl

/-- Claim C3 (amended): `track_event` never fails for any `user_id`,
including the empty one; every call atomically appends exactly one event
record to the log and to the caller's session list, and leaves the error
store untouched. -/
theorem C3_track_event_never_fails (t u : String) (m : Metadata) (now : TS)
    (s : AnalyzerState) :
    (trackEvent t u m now s).events = s.events ++ [⟨t, u, now, m⟩] ∧
    (trackEvent t u m now s).user_sessions =
      appendAt s.user_sessions u ⟨t, u, now, m⟩ ∧
    (trackEvent t u m now s).error_patterns = s.error_patterns :=
  ⟨rfl, rfl, rfl⟩

/-- Claim C4 (counterexample): for the type `"feature_a_feature_b"` the
claim says the counter key is the suffix `"a_feature_b"`; the source's
`str.replace` removes every occurrence, so the incremented key is
`"a_b"` and the claimed key stays at zero. -/
theorem C4_feature_key_counterexample :
    lookupD (trackEvent "feature_a_feature_b" "u1" [] ts0
      initState).feature_usage "a_feature_b" 0 = 0 ∧
    lookupD (trackEvent "feature_a_feature_b" "u1" [] ts0
      initState).feature_usage "a_b" 0 = 1 := by
  exact ⟨by decide, by decide⟩

/-- Claim C4 (amended): an event whose type starts with `"feature_"`
increments exactly the counter keyed by the type with every occurrence of
`"feature_"` removed (left-to-right, non-overlapping, as `str.replace`
does); any other event leaves every feature counter unchanged. -/
theorem C4_feature_counter_update (t u : String) (m : Metadata) (now : TS)
    (s : AnalyzerState) (f : String) :
    lookupD (trackEvent t u m now s).feature_usage f 0 =
      lookupD s.feature_usage f 0 +
        (if startsFeature t = true ∧ removeFeature t = f then 1 else 0) :=
  lookup_fu_step t s.feature_usage f

/-- Claim C6 (counterexample): after `opsC6` the adoption analysis reports
feature `"feature_x"` with `total_uses = 1` but `unique_users = 2`, so the
claimed invariant `unique_users ≤ total_uses` fails on this log. -/
theorem C6_adoption_counterexample :
    featureUseCounts (analyzeFeatureAdoption (run opsC6)) =
      [("feature_x", 1, 2), ("x", 2, 0)] ∧ ¬ (2 : Nat) ≤ 1 := by
  exact ⟨rfl, by decide⟩

/-- Claim C6 (amended): every reported adoption rate lies in `[0, 1]`; and
`unique_users ≤ total_uses` holds for every feature whose name does not
itself contain `"feature_"` as a substring (for names that do, the
replace-all counter keys can collide and the inequality can fail, see the
counterexample). -/
theorem C6_adoption_invariants (ops : List Op) (feature : String)
    (data : FeatureData)
    (hmem : (feature, data) ∈
      adoptionFeatures (analyzeFeatureAdoption (run ops))) :
    (0 ≤ data.adoption_rate ∧ data.adoption_rate ≤ 1) ∧
    (¬ featureChars <:+: feature.data →
      data.unique_users ≤ data.total_uses) := by
  obtain ⟨h0, cnt, hcnt, hdata⟩ := adoption_mem hmem
  have hinv := inv_run ops
  subst hdata
  refine ⟨⟨?_, ?_⟩, ?_⟩
  · exact div_nonneg (Nat.cast_nonneg _) (Nat.cast_nonneg _)
  · show ((usersUsingFeature (run ops) feature).length : ℚ) /
      ((run ops).user_sessions.length : ℚ) ≤ 1
    have hle := usersUsing_length_le (run ops) feature
    have hpos : (0 : ℚ) < ((run ops).user_sessions.length : ℚ) := by
      exact_mod_cast Nat.pos_of_ne_zero h0
    rw [div_le_one hpos]
    exact_mod_cast hle
  · intro hclean
    show (usersUsingFeature (run ops) feature).length ≤ cnt
    have husnd : ((run ops).user_sessions.map (fun p => p.1)).Nodup := by
      rw [hinv.usKeys]
      exact firstDedup_nodup _
    rw [usersUsing_eq_countP _ _ husnd]
    have h := hinv.ineq feature hclean
    rwa [lookupD_eq_of_mem 0 hcnt hinv.fuNodup] at h

/-- Witness for C6 at a concrete log: after `opsC6w`, feature `"a"` is in
the adoption result and satisfies both invariants. -/
theorem C6_adoption_invariants_witness :
    (("a", dataC6w) ∈ adoptionFeatures (analyzeFeatureAdoption (run opsC6w))) ∧
    (0 ≤ dataC6w.adoption_rate ∧ dataC6w.adoption_rate ≤ 1) ∧
    dataC6w.unique_users ≤ dataC6w.total_uses := by
  have hmem : ("a", dataC6w) ∈
      adoptionFeatures (analyzeFeatureAdoption (run opsC6w)) := by
    show ("a", dataC6w) ∈ [("a", dataC6w)]
    exact List.mem_singleton.mpr rfl
  have h := C6_adoption_invariants opsC6w "a" dataC6w hmem
  exact ⟨hmem, h.1, h.2 (by decide)⟩

/-- Claim C2 (counterexample): after `opsC2` the source reports adoption
rate `1/1` for feature `"x"` (its denominator counts only the one event
user), while the claim's denominator — distinct users anywhere in the log,
error occurrences included — is `2`, which would give `1/2 ≠ 1/1`. -/
theorem C2_adoption_counterexample :
    adoptionRateOf (analyzeFeatureAdoption (run opsC2)) "x" =
      some ((((1 : Nat)) : ℚ) / (((1 : Nat)) : ℚ)) ∧
    claimTotalUsersWithErrors (run opsC2) = 2 ∧
    ((((1 : Nat)) : ℚ) / (((1 : Nat)) : ℚ) ≠
      (((1 : Nat)) : ℚ) / (((2 : Nat)) : ℚ)) := by
  refine ⟨rfl, rfl, by norm_num⟩

/-- Claim C2 (amended): for every feature in the adoption result the
reported `adoption_rate` equals `unique_users` divided by the number of
distinct user ids among the *tracked events* — user ids recorded only via
`track_error` are not counted in the denominator. -/
theorem C2_adoption_rate_denominator (ops : List Op) (feature : String)
    (data : FeatureData)
    (hmem : (feature, data) ∈
      adoptionFeatures (analyzeFeatureAdoption (run ops))) :
    data.adoption_rate = (data.unique_users : ℚ) /
      ((firstDedup (eventUsers (run ops))).length : ℚ) := by
  obtain ⟨h0, cnt, hcnt, hdata⟩ := adoption_mem hmem
  have hinv := inv_run ops
  subst hdata
  show ((usersUsingFeature (run ops) feature).length : ℚ) /
      ((run ops).user_sessions.length : ℚ) =
    ((usersUsingFeature (run ops) feature).length : ℚ) /
      ((firstDedup (eventUsers (run ops))).length : ℚ)
  rw [show (run ops).user_sessions.length =
      (firstDedup (eventUsers (run ops))).length from by
    rw [← hinv.usKeys, List.length_map]]

/-- Witness for C2 at a concrete log. -/
theorem C2_adoption_rate_denominator_witness :
    (("a", dataC2w) ∈ adoptionFeatures (analyzeFeatureAdoption (run opsC2w))) ∧
    dataC2w.adoption_rate = (dataC2w.unique_users : ℚ) /
      ((firstDedup (eventUsers (run opsC2w))).length : ℚ) := by
  have hmem : ("a", dataC2w) ∈
      adoptionFeatures (analyzeFeatureAdoption (run opsC2w)) := by
    show ("a", dataC2w) ∈ [("a", dataC2w)]
    exact List.mem_singleton.mpr rfl
  exact ⟨hmem, C2_adoption_rate_denominator opsC2w "a" dataC2w hmem⟩

/-- Claim C7: on the empty log each of the four analyzers returns its
structured no-data value — the `"error"` sentinel for adoption, empty
results with zero counts for journeys and errors, and the `(0, "")` peak
sentinels for time patterns — and none of them fails. -/
theorem C7_empty_log_results :
    analyzeFeatureAdoption initState = .noData ∧
    analyzeUserJourneys initState = .ok ⟨0, [], []⟩ ∧
    analyzeErrorPatterns initState = ⟨0, [], []⟩ ∧
    analyzeTimePatterns initState = ⟨[], [], 0, "",
      ["Peak usage hour: 0:00 with 0 events",
       "Peak usage day:  with 0 events",
       "Consider scheduling maintenance during low-activity periods"]⟩ :=
  ⟨rfl, rfl, rfl, rfl⟩

/-- Claim C8: each analyzer is a pure function of the accumulated log —
calling it twice with no intervening ingestion returns the same result
both times and leaves the state exactly as it was. -/
theorem C8_analyzers_idempotent (s : AnalyzerState) :
    ((callAnalyzeFeatureAdoption
        (callAnalyzeFeatureAdoption s).2).1 =
      (callAnalyzeFeatureAdoption s).1 ∧
      (callAnalyzeFeatureAdoption (callAnalyzeFeatureAdoption s).2).2 = s) ∧
    ((callAnalyzeUserJourneys (callAnalyzeUserJourneys s).2).1 =
      (callAnalyzeUserJourneys s).1 ∧
      (callAnalyzeUserJourneys (callAnalyzeUserJourneys s).2).2 = s) ∧
    ((callAnalyzeErrorPatterns (callAnalyzeErrorPatterns s).2).1 =
      (callAnalyzeErrorPatterns s).1 ∧
      (callAnalyzeErrorPatterns (callAnalyzeErrorPatterns s).2).2 = s) ∧
    ((callAnalyzeTimePatterns (callAnalyzeTimePatterns s).2).1 =
      (callAnalyzeTimePatterns s).1 ∧
      (callAnalyzeTimePatterns (callAnalyzeTimePatterns s).2).2 = s) :=
  ⟨⟨rfl, rfl⟩, ⟨rfl, rfl⟩, ⟨rfl, rfl⟩, ⟨rfl, rfl⟩⟩

/-- Claim C10: the four analyzers and the report assembler are read-only:
the engine state after any of these calls is exactly the state before
(hence all four stores — events, sessions, counters, errors — are
unchanged). -/
theorem C10_analysis_read_only (s : AnalyzerState) (now : String) :
    (callAnalyzeFeatureAdoption s).2 = s ∧
    (callAnalyzeUserJourneys s).2 = s ∧
    (callAnalyzeErrorPatterns s).2 = s ∧
    (callAnalyzeTimePatterns s).2 = s ∧
    (callGenerateComprehensiveReport now s).2 = s :=
  ⟨rfl, rfl, rfl, rfl, rfl⟩

theorem insertDesc_length (x : String × Nat) (l : List (String × Nat)) :
    (insertDesc x l).length = l.length + 1 := by
  induction l with
  | nil => rfl
  | cons y ys ih =>
    by_cases h : y.2 ≥ x.2 <;> simp [insertDesc, h, ih]

theorem sortDesc_length (l : List (String × Nat)) :
    (sortDesc l).length = l.length := by
  suffices h : ∀ acc : List (String × Nat),
      (l.foldl (fun acc x => insertDesc x acc) acc).length =
        acc.length + l.length by
    simpa [sortDesc] using h []
  induction l with
  | nil => intro acc; simp
  | cons x xs ih =>
    intro acc
    simp only [List.foldl_cons]
    rw [ih (insertDesc x acc), insertDesc_length]
    simp
    omega

theorem foldl_incr_ne_nil (ps : List String) (acc : List (String × Nat))
    (h : acc ≠ [] ∨ ps ≠ []) : ps.foldl incr acc ≠ [] := by
  induction ps generalizing acc with
  | nil =>
    rcases h with h | h
    · exact h
    · exact absurd rfl h
  | cons p ps ih =>
    simp only [List.foldl_cons]
    exact ih (incr acc p) (Or.inl (incr_ne_nil acc p))

theorem adjPatterns_ne_nil {evs : List Event} (h : 2 ≤ evs.length) :
    adjPatterns evs ≠ [] := by
  cases evs with
  | nil => simp at h
  | cons a t =>
    cases t with
    | nil => simp at h
    | cons b rest => simp [adjPatterns]

theorem foldl_journeyStep_ne_nil (l : List (String × List Event))
    (acc : List (String × Nat)) (h : acc ≠ []) :
    l.foldl (fun acc p =>
      if p.2.length < 2 then acc else (adjPatterns p.2).foldl incr acc) acc ≠
      [] := by
  induction l generalizing acc with
  | nil => exact h
  | cons p ps ih =>
    simp only [List.foldl_cons]
    apply ih
    split
    · exact h
    · exact foldl_incr_ne_nil _ _ (Or.inl h)

theorem journeyPatterns_ne_nil {s : AnalyzerState} {p₀ : String × List Event}
    (hmem : p₀ ∈ s.user_sessions) (hlen : 2 ≤ p₀.2.length) :
    journeyPatterns s ≠ [] := by
  obtain ⟨l₁, l₂, heq⟩ := List.append_of_mem hmem
  unfold journeyPatterns
  rw [heq, List.foldl_append, List.foldl_cons]
  apply foldl_journeyStep_ne_nil
  rw [if_neg (by omega)]
  exact foldl_incr_ne_nil _ _ (Or.inr (adjPatterns_ne_nil hlen))

/-- Claim C1: the claim (and the spec) say that whenever a journey pattern
exists, `analyze_user_journeys` succeeds and flags the frequent patterns.
In the source, `_generate_journey_insights` subscripts
`SUGGESTION_THRESHOLDS["pattern_frequency_threshold"]`, a key
`ai_config.py` never defines, so the call raises `KeyError` on every log
that has at least one journey pattern — the code contradicts its own
configuration and the spec's stated intent. -/
theorem C1_journeys_keyerror (s : AnalyzerState)
    (h : ∃ p ∈ s.user_sessions, 2 ≤ p.2.length) :
    analyzeUserJourneys s =
      .error (.keyError "pattern_frequency_threshold") := by
  obtain ⟨p₀, hmem, hlen⟩ := h
  have hne : journeyPatterns s ≠ [] := journeyPatterns_ne_nil hmem hlen
  have hsortne : sortDesc (journeyPatterns s) ≠ [] := by
    intro hcontra
    have hlen0 := sortDesc_length (journeyPatterns s)
    rw [hcontra] at hlen0
    exact hne (List.length_eq_zero.mp hlen0.symm)
  obtain ⟨q, qs, hq⟩ := List.exists_cons_of_ne_nil hsortne
  simp only [analyzeUserJourneys]
  rw [hq]
  rw [show (q :: qs).take 10 = q :: qs.take 9 from rfl]
  obtain ⟨qp, qc⟩ := q
  have hlook : dictLookup SUGGESTION_THRESHOLDS "pattern_frequency_threshold" =
      (none : Option ℚ) := rfl
  simp [generateJourneyInsights, hlook]

/-- Witness for C1 at a concrete log: one user with two events makes the
journey analysis raise the KeyError. -/
theorem C1_journeys_keyerror_witness :
    analyzeUserJourneys (run opsC1) =
      .error (.keyError "pattern_frequency_threshold") :=
  C1_journeys_keyerror (run opsC1) (by decide)

theorem foldl_max_le_self (xs : List ℚ) (a : ℚ) : a ≤ xs.foldl max a := by
  induction xs generalizing a with
  | nil => exact le_refl a
  | cons b bs ih =>
    simp only [List.foldl_cons]
    exact le_trans (le_max_left a b) (ih (max a b))

theorem le_listMax {l : List ℚ} {x : ℚ} (h : x ∈ l) : x ≤ listMax l := by
  cases l with
  | nil => simp at h
  | cons a xs =>
    show x ≤ xs.foldl max a
    induction xs generalizing a with
    | nil =>
      rcases List.mem_singleton.mp h with rfl
      exact le_refl x
    | cons b bs ih =>
      simp only [List.foldl_cons]
      rcases List.mem_cons.mp h with rfl | h'
      · exact le_trans (le_max_left x b) (foldl_max_le_self bs (max x b))
      · rcases List.mem_cons.mp h' with rfl | h''
        · exact le_trans (le_max_right a x) (foldl_max_le_self bs (max a x))
        · exact ih (max a b) (List.mem_cons_of_mem _ h'')

theorem foldl_max_mem (xs : List ℚ) (a : ℚ) :
    xs.foldl max a = a ∨ xs.foldl max a ∈ xs := by
  induction xs generalizing a with
  | nil => exact Or.inl rfl
  | cons b bs ih =>
    simp only [List.foldl_cons]
    rcases ih (max a b) with h | h
    · rcases max_choice a b with hm | hm
      · exact Or.inl (by rw [h, hm])
      · exact Or.inr (by rw [h, hm]; exact List.mem_cons_self b bs)
    · exact Or.inr (List.mem_cons_of_mem b h)

theorem listMax_mem {l : List ℚ} (h : l ≠ []) : listMax l ∈ l := by
  cases l with
  | nil => exact absurd rfl h
  | cons a xs =>
    show xs.foldl max a ∈ a :: xs
    rcases foldl_max_mem xs a with h' | h'
    · rw [h']; exact List.mem_cons_self a xs
    · exact List.mem_cons_of_mem a h'

theorem foldl_min_le_self (xs : List ℚ) (a : ℚ) : xs.foldl min a ≤ a := by
  induction xs generalizing a with
  | nil => exact le_refl a
  | cons b bs ih =>
    simp only [List.foldl_cons]
    exact le_trans (ih (min a b)) (min_le_left a b)

theorem listMin_le {l : List ℚ} {x : ℚ} (h : x ∈ l) : listMin l ≤ x := by
  cases l with
  | nil => simp at h
  | cons a xs =>
    show xs.foldl min a ≤ x
    induction xs generalizing a with
    | nil =>
      rcases List.mem_singleton.mp h with rfl
      exact le_refl x
    | cons b bs ih =>
      simp only [List.foldl_cons]
      rcases List.mem_cons.mp h with rfl | h'
      · exact le_trans (foldl_min_le_self bs (min x b)) (min_le_left x b)
      · rcases List.mem_cons.mp h' with rfl | h''
        · exact le_trans (foldl_min_le_self bs (min a x)) (min_le_right a x)
        · exact ih (min a b) (List.mem_cons_of_mem _ h'')

theorem foldl_min_mem (xs : List ℚ) (a : ℚ) :
    xs.foldl min a = a ∨ xs.foldl min a ∈ xs := by
  induction xs generalizing a with
  | nil => exact Or.inl rfl
  | cons b bs ih =>
    simp only [List.foldl_cons]
    rcases ih (min a b) with h | h
    · rcases min_choice a b with hm | hm
      · exact Or.inl (by rw [h, hm])
      · exact Or.inr (by rw [h, hm]; exact List.mem_cons_self b bs)
    · exact Or.inr (List.mem_cons_of_mem b h)

theorem listMin_mem {l : List ℚ} (h : l ≠ []) : listMin l ∈ l := by
  cases l with
  | nil => exact absurd rfl h
  | cons a xs =>
    show xs.foldl min a ∈ a :: xs
    rcases foldl_min_mem xs a with h' | h'
    · rw [h']; exact List.mem_cons_self a xs
    · exact List.mem_cons_of_mem a h'

theorem sub_lt_one_of_floor_eq {x y : ℚ} (h : ⌊x⌋ = ⌊y⌋) : x - y < 1 := by
  have h1 : x < ⌊x⌋ + 1 := Int.lt_floor_add_one x
  have h2 : (⌊y⌋ : ℚ) ≤ y := Int.floor_le y
  rw [h] at h1
  linarith

/-- Claim C5: for every stored error type with at least one occurrence the
reported `frequency_per_day` is `occurrences / max(span_in_days, 1)` with
the span in exact fractional days; and when all occurrences fall on the
same calendar day (equal epoch-day floors, hence a sub-day span) the
divisor floors to 1 and the frequency is exactly the occurrence count. -/
theorem C5_frequency_per_day (s : AnalyzerState) (etype : String)
    (occs : List ErrorRec) (hmem : (etype, occs) ∈ s.error_patterns)
    (hne : occs ≠ []) :
    (etype, errorEntry occs) ∈ (analyzeErrorPatterns s).errors ∧
    (errorEntry occs).frequency_per_day = (occs.length : ℚ) /
      max ((listMax (occs.map (fun e => e.timestamp.seconds)) -
        listMin (occs.map (fun e => e.timestamp.seconds))) / 86400) 1 ∧
    ((∀ a ∈ occs, ∀ b ∈ occs,
        ⌊a.timestamp.seconds / 86400⌋ = ⌊b.timestamp.seconds / 86400⌋) →
      (errorEntry occs).frequency_per_day = (occs.length : ℚ)) := by
  have hts : occs.map (fun e => e.timestamp.seconds) ≠ [] := by
    intro hc
    exact hne (List.map_eq_nil_iff.mp hc)
  refine ⟨?_, ?_, ?_⟩
  · exact List.mem_map.mpr ⟨(etype, occs), hmem, rfl⟩
  · simp only [errorEntry]
    rw [if_pos hts]
  · intro hsame
    have hmax := listMax_mem hts
    have hmin := listMin_mem hts
    obtain ⟨ea, hea, heaq⟩ := List.mem_map.mp hmax
    obtain ⟨eb, heb, hebq⟩ := List.mem_map.mp hmin
    have hfl : ⌊listMax (occs.map (fun e => e.timestamp.seconds)) / 86400⌋ =
        ⌊listMin (occs.map (fun e => e.timestamp.seconds)) / 86400⌋ := by
      rw [← heaq, ← hebq]
      exact hsame ea hea eb heb
    have hdays : (listMax (occs.map (fun e => e.timestamp.seconds)) -
        listMin (occs.map (fun e => e.timestamp.seconds))) / 86400 < 1 := by
      rw [sub_div]
      exact sub_lt_one_of_floor_eq hfl
    simp only [errorEntry]
    rw [if_pos hts, max_eq_right (le_of_lt hdays), div_one]

/-- Witness for C5 at a concrete log: two same-day occurrences of
`"timeout"` give `frequency_per_day` exactly 2. -/
theorem C5_frequency_per_day_witness :
    ((("timeout", occsC5) ∈ (run opsC5).error_patterns) ∧ occsC5 ≠ []) ∧
    (errorEntry occsC5).frequency_per_day = (occsC5.length : ℚ) := by
  have h := C5_frequency_per_day (run opsC5) "timeout" occsC5 (by decide)
    (by decide)
  refine ⟨⟨by decide, by decide⟩, ?_⟩
  apply h.2.2
  have h0 : ∀ a ∈ occsC5, ⌊a.timestamp.seconds / 86400⌋ = 0 := by
    intro a ha
    simp only [occsC5, List.mem_cons, List.not_mem_nil, or_false] at ha
    rcases ha with rfl | rfl
    · show ⌊(100 : ℚ) / 86400⌋ = 0
      rw [Int.floor_eq_zero_iff]
      constructor <;> norm_num
    · show ⌊(200 : ℚ) / 86400⌋ = 0
      rw [Int.floor_eq_zero_iff]
      constructor <;> norm_num
  intro a ha b hb
  rw [h0 a ha, h0 b hb]

theorem pyMaxBySnd_spec {κ : Type} (a : κ × Nat) (l : List (κ × Nat)) :
    pyMaxBySnd a l ∈ a :: l ∧
    (∀ x ∈ a :: l, x.2 ≤ (pyMaxBySnd a l).2) ∧
    ∃ l₁ l₂, a :: l = l₁ ++ pyMaxBySnd a l :: l₂ ∧
      ∀ x ∈ l₁, x.2 < (pyMaxBySnd a l).2 := by
  induction l generalizing a with
  | nil =>
    refine ⟨List.mem_singleton.mpr rfl, ?_, [], [], rfl, by simp⟩
    intro x hx
    rw [List.mem_singleton.mp hx]
    exact le_refl _
  | cons b bs ih =>
    have hstep : pyMaxBySnd a (b :: bs) =
        pyMaxBySnd (if b.2 > a.2 then b else a) bs := rfl
    by_cases hb : b.2 > a.2
    · rw [hstep, if_pos hb]
      obtain ⟨hmem, hmax, l₁, l₂, hdec, hlt⟩ := ih b
      refine ⟨List.mem_cons_of_mem a hmem, ?_, a :: l₁, l₂, ?_, ?_⟩
      · intro x hx
        rcases List.mem_cons.mp hx with rfl | hx'
        · exact le_trans (le_of_lt hb) (hmax b (List.mem_cons_self b bs))
        · exact hmax x hx'
      · rw [List.cons_append, ← hdec]
      · intro x hx
        rcases List.mem_cons.mp hx with rfl | hx'
        · exact lt_of_lt_of_le hb (hmax b (List.mem_cons_self b bs))
        · exact hlt x hx'
    · rw [hstep, if_neg hb]
      obtain ⟨hmem, hmax, l₁, l₂, hdec, hlt⟩ := ih a
      refine ⟨?_, ?_, ?_⟩
      · rcases List.mem_cons.mp hmem with h' | h'
        · rw [h']
          exact List.mem_cons_self a (b :: bs)
        · exact List.mem_cons_of_mem a (List.mem_cons_of_mem b h')
      · intro x hx
        rcases List.mem_cons.mp hx with rfl | hx'
        · exact hmax x (List.mem_cons_self x bs)
        · rcases List.mem_cons.mp hx' with rfl | hx''
          · exact le_trans (le_of_not_lt hb)
              (hmax a (List.mem_cons_self a bs))
          · exact hmax x (List.mem_cons_of_mem a hx'')
      · cases l₁ with
        | nil =>
          rw [List.nil_append] at hdec
          injection hdec with h1 h2
          refine ⟨[], b :: bs, ?_, by simp⟩
          rw [List.nil_append, ← h1]
        | cons c cs =>
          rw [List.cons_append] at hdec
          injection hdec with h1 h2
          subst h1
          refine ⟨a :: b :: cs, l₂, ?_, ?_⟩
          · conv_rhs => rw [List.cons_append, List.cons_append, ← h2]
          · intro x hx
            have hc2 : a.2 < (pyMaxBySnd a bs).2 :=
              hlt a (List.mem_cons_self a cs)
            rcases List.mem_cons.mp hx with rfl | hx'
            · exact hc2
            · rcases List.mem_cons.mp hx' with rfl | hx''
              · exact lt_of_le_of_lt (le_of_not_lt hb) hc2
              · exact hlt x (List.mem_cons_of_mem a hx'')

section CountLemmas

variable {κ : Type} [DecidableEq κ] [BEq κ] [LawfulBEq κ]

theorem lookupD_buildCounts (l : List κ) (k : κ) :
    lookupD (buildCounts l) k 0 = l.count k := by
  suffices h : ∀ acc : List (κ × Nat),
      lookupD (l.foldl (fun acc k => incr acc k) acc) k 0 =
        lookupD acc k 0 + l.count k by
    simpa [buildCounts, lookupD] using h []
  induction l with
  | nil => intro acc; simp
  | cons a rest ih =>
    intro acc
    simp only [List.foldl_cons]
    rw [ih (incr acc a), lookupD_incr, List.count_cons]
    by_cases hak : a = k
    · simp [hak]
      omega
    · have : ¬ k = a := fun h => hak h.symm
      simp [hak, this]

theorem buildCounts_keys (l : List κ) :
    ((buildCounts l).map (fun p => p.1)).Nodup ∧
    (∀ k, k ∈ (buildCounts l).map (fun p => p.1) ↔ k ∈ l) ∧
    ((buildCounts l).map (fun p => p.1)).Pairwise
      (fun a b => firstIdx l a < firstIdx l b) := by
  induction l using List.reverseRecOn with
  | nil => simp [buildCounts]
  | append_singleton xs x ih =>
    obtain ⟨ihnd, ihmem, ihpw⟩ := ih
    have hb : buildCounts (xs ++ [x]) = incr (buildCounts xs) x := by
      simp [buildCounts, List.foldl_append]
    rw [hb, keys_incr]
    by_cases hx : x ∈ (buildCounts xs).map (fun p => p.1)
    · rw [if_pos hx]
      have hxl : x ∈ xs := (ihmem x).mp hx
      refine ⟨ihnd, ?_, ?_⟩
      · intro k
        rw [ihmem k, List.mem_append, List.mem_singleton]
        constructor
        · exact Or.inl
        · rintro (h | rfl)
          · exact h
          · exact hxl
      · refine ihpw.imp_of_mem ?_
        intro a b ha hb hab
        have ha' : a ∈ xs := (ihmem a).mp ha
        have hb' : b ∈ xs := (ihmem b).mp hb
        rw [firstIdx_append_of_mem _ ha', firstIdx_append_of_mem _ hb']
        exact hab
    · rw [if_neg hx]
      have hxl : x ∉ xs := fun hh => hx ((ihmem x).mpr hh)
      refine ⟨?_, ?_, ?_⟩
      · rw [List.nodup_append]
        refine ⟨ihnd, List.nodup_singleton x, ?_⟩
        intro a ha hax
        rw [List.mem_singleton] at hax
        subst hax
        exact hx ha
      · intro k
        rw [List.mem_append, List.mem_singleton, ihmem k, List.mem_append,
          List.mem_singleton]
      · rw [List.pairwise_append]
        refine ⟨?_, ?_, ?_⟩
        · refine ihpw.imp_of_mem ?_
          intro a b ha hb hab
          rw [firstIdx_append_of_mem _ ((ihmem a).mp ha),
            firstIdx_append_of_mem _ ((ihmem b).mp hb)]
          exact hab
        · exact List.pairwise_singleton _ x
        · intro a ha b hb
          rw [List.mem_singleton] at hb
          subst hb
          have ha' : a ∈ xs := (ihmem a).mp ha
          rw [firstIdx_append_of_mem _ ha', firstIdx_append_of_not_mem _ hxl]
          have h1 : firstIdx xs a < xs.length := firstIdx_lt_length ha'
          have h2 : firstIdx [b] b = 0 := by simp [firstIdx]
          omega

theorem pair_count_of_mem {l : List κ} {p : κ × Nat}
    (hp : p ∈ buildCounts l) : p.2 = l.count p.1 ∧ p.1 ∈ l := by
  have hnd := (buildCounts_keys l).1
  have hk : p.1 ∈ (buildCounts l).map (fun q => q.1) :=
    List.mem_map.mpr ⟨p, hp, rfl⟩
  have h1 : lookupD (buildCounts l) p.1 0 = p.2 := by
    have : (p.1, p.2) ∈ buildCounts l := hp
    exact lookupD_eq_of_mem 0 this hnd
  refine ⟨?_, ((buildCounts_keys l).2.1 p.1).mp hk⟩
  rw [← h1, lookupD_buildCounts]

theorem mem_buildCounts_of_mem {l : List κ} {k : κ} (h : k ∈ l) :
    (k, l.count k) ∈ buildCounts l := by
  have hk : k ∈ (buildCounts l).map (fun q => q.1) :=
    ((buildCounts_keys l).2.1 k).mpr h
  obtain ⟨p, hp, hpk⟩ := List.mem_map.mp hk
  have hv := (pair_count_of_mem hp).1
  have : p = (k, l.count k) := by
    obtain ⟨pa, pb⟩ := p
    simp only at hpk hv
    subst hpk
    rw [hv]
  rw [← this]
  exact hp

theorem peak_spec (l : List κ) (x0 : κ × Nat) (xs : List (κ × Nat))
    (hbc : buildCounts l = x0 :: xs) :
    (∀ k ∈ l, l.count k ≤ l.count (pyMaxBySnd x0 xs).1) ∧
    (∀ k ∈ l, l.count k = l.count (pyMaxBySnd x0 xs).1 →
      firstIdx l (pyMaxBySnd x0 xs).1 ≤ firstIdx l k) := by
  obtain ⟨hmem, hmax, l₁, l₂, hdec, hlt⟩ := pyMaxBySnd_spec x0 xs
  have hmbc : pyMaxBySnd x0 xs ∈ buildCounts l := by
    rw [hbc]
    exact hmem
  have hmspec := pair_count_of_mem hmbc
  constructor
  · intro k hk
    have hkbc : (k, l.count k) ∈ buildCounts l := mem_buildCounts_of_mem hk
    rw [hbc] at hkbc
    have h1 := hmax (k, l.count k) hkbc
    rw [← hmspec.1]
    exact h1
  · intro k hk hcount
    by_cases hkm : k = (pyMaxBySnd x0 xs).1
    · rw [hkm]
    · have hdec' : buildCounts l = l₁ ++ pyMaxBySnd x0 xs :: l₂ := by
        rw [hbc]
        exact hdec
      have hkbc : (k, l.count k) ∈ buildCounts l := mem_buildCounts_of_mem hk
      rw [hdec'] at hkbc
      rcases List.mem_append.mp hkbc with h1 | h2
      · have h3 := hlt _ h1
        rw [hmspec.1] at h3
        simp only at h3
        omega
      · rcases List.mem_cons.mp h2 with heq | h3
        · exact absurd (congrArg Prod.fst heq) hkm
        · have hpw := (buildCounts_keys l).2.2
          rw [hdec', List.map_append, List.map_cons] at hpw
          have h4 := (List.pairwise_append.mp hpw).2.1
          have h5 := (List.pairwise_cons.mp h4).1
          have hk2 : k ∈ l₂.map (fun p => p.1) :=
            List.mem_map.mpr ⟨(k, l.count k), h3, rfl⟩
          exact le_of_lt (h5 k hk2)

end CountLemmas

theorem buildCounts_cons_of_ne_nil {κ : Type} [DecidableEq κ] [BEq κ]
    [LawfulBEq κ] {l : List κ} (h : l ≠ []) :
    ∃ x0 xs, buildCounts l = x0 :: xs := by
  cases hbc : buildCounts l with
  | nil =>
    obtain ⟨k, hk⟩ := List.exists_mem_of_ne_nil l h
    have hkk := ((buildCounts_keys l).2.1 k).mpr hk
    rw [hbc] at hkk
    simp at hkk
  | cons a t => exact ⟨a, t, rfl⟩

/-- Claim C9: the reported `peak_hour` and `peak_day` carry the maximum
bucket count, and on ties the winner is the bucket whose first event is
earliest in the append order of the log (Python `max` keeps the first
maximal item, and dict key order is first-occurrence order). -/
theorem C9_peak_tie_break (s : AnalyzerState) (h : s.events ≠ []) :
    (∀ k ∈ hoursOf s, (hoursOf s).count k ≤
      (hoursOf s).count (analyzeTimePatterns s).peak_hour) ∧
    (∀ k ∈ hoursOf s, (hoursOf s).count k =
        (hoursOf s).count (analyzeTimePatterns s).peak_hour →
      firstIdx (hoursOf s) (analyzeTimePatterns s).peak_hour ≤
        firstIdx (hoursOf s) k) ∧
    (∀ d ∈ daysOf s, (daysOf s).count d ≤
      (daysOf s).count (analyzeTimePatterns s).peak_day) ∧
    (∀ d ∈ daysOf s, (daysOf s).count d =
        (daysOf s).count (analyzeTimePatterns s).peak_day →
      firstIdx (daysOf s) (analyzeTimePatterns s).peak_day ≤
        firstIdx (daysOf s) d) := by
  have hh : hoursOf s ≠ [] := fun hc => h (List.map_eq_nil_iff.mp hc)
  have hd : daysOf s ≠ [] := fun hc => h (List.map_eq_nil_iff.mp hc)
  obtain ⟨x0, xs, hbx⟩ := buildCounts_cons_of_ne_nil hh
  obtain ⟨y0, ys, hby⟩ := buildCounts_cons_of_ne_nil hd
  have hpH : (analyzeTimePatterns s).peak_hour = (pyMaxBySnd x0 xs).1 := by
    simp only [analyzeTimePatterns, hbx]
  have hpD : (analyzeTimePatterns s).peak_day = (pyMaxBySnd y0 ys).1 := by
    simp only [analyzeTimePatterns, hby]
  rw [hpH, hpD]
  have hspecH := peak_spec (hoursOf s) x0 xs hbx
  have hspecD := peak_spec (daysOf s) y0 ys hby
  exact ⟨hspecH.1, hspecH.2, hspecD.1, hspecD.2⟩

/-- Witness for C9 at a concrete log: hours 14, 9, 9, 14 tie at two events
each; hour 14 was logged first and is reported as the peak, and its first
occurrence is not later than that of the tied hour 9. -/
theorem C9_peak_tie_break_witness :
    (run opsC9).events ≠ [] ∧
    (hoursOf (run opsC9)).count 9 =
      (hoursOf (run opsC9)).count (analyzeTimePatterns (run opsC9)).peak_hour ∧
    firstIdx (hoursOf (run opsC9))
        (analyzeTimePatterns (run opsC9)).peak_hour ≤
      firstIdx (hoursOf (run opsC9)) 9 := by
  have h := C9_peak_tie_break (run opsC9) (by decide)
  exact ⟨by decide, by decide, h.2.1 9 (by decide) (by decide)⟩

end NeuralGate
